import Mathlib

/-!
Verification of the canonical-encoding-plus-hashing seed pipeline implemented in
ext/pseudo_random_native/pseudo_random_native.cpp (class SeedCalculator and the
module function PseudoRandom.SeedNative.to_seed_int).

The C++ source is shallowly embedded: machine integers become Nat/Int with
explicit reductions modulo 2^64 (resp. 2^32) where the source relies on
uint64_t/uint32_t wrap-around, the growable byte buffer becomes a List Nat of
byte values, and Ruby VALUE trees become the inductive type Value below.
-/

namespace PseudoRandom

/-- FNV-1a 64-bit offset basis, from the source constant FNV_OFFSET. -/
def FNV_OFFSET : Nat := 0xcbf29ce484222325

/-- FNV-1a 64-bit prime, from the source constant FNV_PRIME. -/
def FNV_PRIME : Nat := 0x100000001b3

/-- All-ones 64-bit mask, from the source constant MASK64. -/
def MASK64 : Nat := 0xffffffffffffffff

/-- Two's-complement reinterpretation of an arbitrary-precision integer as a
64-bit signed integer.  This models the effect of the host conversion
NUM2LL(obj) in the T_FIXNUM/T_BIGNUM case; per the spec, out-of-range
magnitudes are silently truncated by a 64-bit reinterpretation. -/
def toInt64 (n : Int) : Int :=
  let m := n % (2 ^ 64 : Int)
  if m < 2 ^ 63 then m else m - 2 ^ 64

/-- Truncation of an integer to an unsigned 64-bit value, as a Nat.  Models the
host conversion NUM2ULL used for the Time seconds/nanoseconds components. -/
def toUInt64Nat (n : Int) : Nat := (n % (2 ^ 64 : Int)).toNat

/-- ZigZag encoding of a signed 64-bit integer, from SeedCalculator::zigzag:
num >= 0 maps to (uint64)num << 1 and num < 0 maps to ((uint64)(-num) << 1) - 1,
with all uint64 arithmetic wrapping modulo 2^64 (the negation of INT64_MIN is
modelled by its two's-complement wrap, which the cast to uint64 makes 2^63). -/
def zigzag (num : Int) : Nat :=
  if 0 ≤ num then (2 * num.toNat) % 2 ^ 64
  else ((2 * ((-num).toNat % 2 ^ 64)) % 2 ^ 64 + 2 ^ 64 - 1) % 2 ^ 64

/-- Structural-recursion worker for the varint encoder.  The source loop
recurses on num / 128, which is not a structural descent, so a fuel argument
drives the recursion; varintAux_eq below proves that with fuel ≥ num the
worker satisfies exactly the source's do-while recurrence. -/
def varintAux : Nat → Nat → List Nat
  | 0, num => [num % 128]
  | fuel + 1, num =>
    let byte := num % 128
    if num / 128 = 0 then [byte] else (byte + 128) :: varintAux fuel (num / 128)

/-- Varint (7-bit continuation) encoding, from SeedCalculator::encode_varint:
emit the low 7 bits of num; if the remaining quotient is zero the byte is
pushed bare and the loop stops, otherwise the byte is pushed with the
continuation bit 0x80 set and the loop continues on num >> 7. -/
def encode_varint (num : Nat) : List Nat := varintAux num num

theorem varintAux_congr : ∀ num f1 f2, num ≤ f1 → num ≤ f2 →
    varintAux f1 num = varintAux f2 num := by
  intro num
  induction num using Nat.strong_induction_on with
  | _ num ih =>
    intro f1 f2 h1 h2
    match f1, f2 with
    | 0, 0 => rfl
    | 0, f2 + 1 =>
      interval_cases num
      simp [varintAux]
    | f1 + 1, 0 =>
      interval_cases num
      simp [varintAux]
    | f1 + 1, f2 + 1 =>
      show (if num / 128 = 0 then [num % 128]
            else (num % 128 + 128) :: varintAux f1 (num / 128)) =
           (if num / 128 = 0 then [num % 128]
            else (num % 128 + 128) :: varintAux f2 (num / 128))
      by_cases hq : num / 128 = 0
      · simp [hq]
      · have hlt : num / 128 < num := Nat.div_lt_self (by omega) (by omega)
        simp only [hq, if_false]
        rw [ih (num / 128) hlt f1 f2 (by omega) (by omega)]

/-- The varint encoder satisfies the source recurrence: a value below 128 is a
single bare byte, otherwise the low 7 bits are emitted with the continuation
bit set, followed by the encoding of the quotient. -/
theorem encode_varint_eq (num : Nat) : encode_varint num =
    if num < 128 then [num]
    else (num % 128 + 128) :: encode_varint (num / 128) := by
  unfold encode_varint
  by_cases h : num < 128
  · match num, h with
    | 0, _ => simp [varintAux]
    | num + 1, h =>
      show (if (num + 1) / 128 = 0 then [(num + 1) % 128]
            else ((num + 1) % 128 + 128) :: varintAux num ((num + 1) / 128)) = _
      have : (num + 1) / 128 = 0 := by omega
      simp [this, h, Nat.mod_eq_of_lt h]
  · have hnum : num ≠ 0 := by omega
    obtain ⟨m, rfl⟩ : ∃ m, num = m + 1 := ⟨num - 1, by omega⟩
    show (if (m + 1) / 128 = 0 then [(m + 1) % 128]
          else ((m + 1) % 128 + 128) :: varintAux m ((m + 1) / 128)) = _
    have hq : (m + 1) / 128 ≠ 0 := by omega
    simp only [hq, if_false, h, if_false]
    have : varintAux m ((m + 1) / 128) = varintAux ((m + 1) / 128) ((m + 1) / 128) :=
      varintAux_congr ((m + 1) / 128) m ((m + 1) / 128) (by omega) le_rfl
    rw [this]

/-- Byte-wise lexicographic strict comparison of byte strings, modelling the
std::string operator< used by the sort comparator in the T_HASH case. -/
def lexLt : List Nat → List Nat → Bool
  | _, [] => false
  | [], _ :: _ => true
  | a :: as, b :: bs => if a < b then true else if b < a then false else lexLt as bs

theorem lexLt_irrefl : ∀ l : List Nat, lexLt l l = false := by
  intro l
  induction l with
  | nil => rfl
  | cons a as ih => simp [lexLt, ih]

theorem lexLt_cons_iff (a b : Nat) (as bs : List Nat) :
    lexLt (a :: as) (b :: bs) = true ↔ a < b ∨ (a = b ∧ lexLt as bs = true) := by
  simp only [lexLt]
  split_ifs with h1 h2
  · simp [h1]
  · constructor
    · intro h
      exact absurd h (by simp)
    · rintro (h | ⟨h, _⟩) <;> omega
  · have hab : a = b := by omega
    simp [hab]

theorem lexLt_trans : ∀ a b c : List Nat,
    lexLt a b = true → lexLt b c = true → lexLt a c = true := by
  intro a
  induction a with
  | nil =>
    intro b c hab hbc
    cases b with
    | nil => exact hbc
    | cons y ys =>
      cases c with
      | nil => simp [lexLt] at hbc
      | cons z zs => rfl
  | cons x xs ih =>
    intro b c hab hbc
    cases b with
    | nil => simp [lexLt] at hab
    | cons y ys =>
      cases c with
      | nil => simp [lexLt] at hbc
      | cons z zs =>
        rw [lexLt_cons_iff] at hab hbc ⊢
        rcases hab with hab | ⟨hab, htab⟩
        · rcases hbc with hbc | ⟨hbc, _⟩
          · exact Or.inl (by omega)
          · exact Or.inl (by omega)
        · rcases hbc with hbc | ⟨hbc, htbc⟩
          · exact Or.inl (by omega)
          · exact Or.inr ⟨by omega, ih ys zs htab htbc⟩

theorem lexLt_connex : ∀ a b : List Nat,
    lexLt a b = false → lexLt b a = false → a = b := by
  intro a
  induction a with
  | nil =>
    intro b hab _
    cases b with
    | nil => rfl
    | cons y ys => simp [lexLt] at hab
  | cons x xs ih =>
    intro b hab hba
    cases b with
    | nil => simp [lexLt] at hba
    | cons y ys =>
      rw [Bool.eq_false_iff, Ne, lexLt_cons_iff] at hab hba
      rcases not_or.mp hab with ⟨ha1, ha2⟩
      rcases not_or.mp hba with ⟨hb1, hb2⟩
      have hxy : x = y := by omega
      subst hxy
      have h1 : lexLt xs ys = false := by
        by_cases h : lexLt xs ys = true
        · exact absurd ⟨rfl, h⟩ ha2
        · simpa using h
      have h2 : lexLt ys xs = false := by
        by_cases h : lexLt ys xs = true
        · exact absurd ⟨rfl, h⟩ hb2
        · simpa using h
      rw [ih ys h1 h2]

/-- The host's dynamic value at the point it enters canonical_serialize,
one constructor per branch of the switch over TYPE(obj): T_NIL, T_TRUE,
T_FALSE, T_FIXNUM/T_BIGNUM (one arbitrary-precision integer case), T_FLOAT
(carried as the 64-bit IEEE-754 bit pattern, which is all the source reads),
T_STRING and T_SYMBOL (byte sequences), T_ARRAY, T_HASH (association list in
insertion order, the order Ruby's Hash#keys reports), the Time branch of
T_DATA (seconds and nanoseconds integers), and the default/opaque fallback
(carried as the host-computed class-name bytes and to_s rendering bytes). -/
inductive Value where
  | vnull
  | vtrue
  | vfalse
  | vint (n : Int)
  | vfloat (bits : Nat)
  | vstr (bytes : List Nat)
  | vsym (name : List Nat)
  | varr (elems : List Value)
  | vmap (pairs : List (Value × Value))
  | vtime (secs : Int) (nsecs : Int)
  | vother (className : List Nat) (rendering : List Nat)

mutual
/-- Structural value equality, modelling the key equality (eql?-based) that
rb_hash_aref uses to fetch a pair's value by its original key. -/
def beqV : Value → Value → Bool
  | .vnull, .vnull => true
  | .vtrue, .vtrue => true
  | .vfalse, .vfalse => true
  | .vint n, .vint m => decide (n = m)
  | .vfloat b1, .vfloat b2 => decide (b1 = b2)
  | .vstr s1, .vstr s2 => decide (s1 = s2)
  | .vsym s1, .vsym s2 => decide (s1 = s2)
  | .varr xs, .varr ys => beqVList xs ys
  | .vmap ps, .vmap qs => beqVPairs ps qs
  | .vtime s1 n1, .vtime s2 n2 => decide (s1 = s2) && decide (n1 = n2)
  | .vother c1 r1, .vother c2 r2 => decide (c1 = c2) && decide (r1 = r2)
  | _, _ => false

def beqVList : List Value → List Value → Bool
  | [], [] => true
  | x :: xs, y :: ys => beqV x y && beqVList xs ys
  | _, _ => false

def beqVPairs : List (Value × Value) → List (Value × Value) → Bool
  | [], [] => true
  | p :: ps, q :: qs => beqV p.1 q.1 && beqV p.2 q.2 && beqVPairs ps qs
  | _, _ => false
end

/-- Decimal digits of a natural number as ASCII byte values. -/
def natToDecimal (n : Nat) : List Nat := (Nat.toDigits 10 n).map Char.toNat

/-- Decimal rendering of an integer as ASCII bytes, with 0x2d for the minus
sign, exactly as the host renders an Integer with to_s. -/
def intToDecimal (i : Int) : List Nat :=
  if i < 0 then 0x2d :: natToDecimal (-i).toNat else natToDecimal i.toNat

/-- Modelled from the spec: one concrete instance of the textual rendering of
a map key, which the source produces with the host call
rb_funcall(key, "to_s").  The host's to_s is not part of this repository;
the spec describes it as "the same rendering a human-readable display of the
key would produce".  The encoder below is therefore parametric in the
rendering function (canonical_serializeR), and every theorem whose truth
depends on which keys render alike quantifies over that parameter; this
instance only drives concrete evaluations.  Its cases with a fixed host
rendering are exact (integers render in decimal with a minus sign, strings
and symbols render as their own bytes, nil renders empty, booleans render as
the words true/false, an opaque value renders as the captured to_s bytes it
carries); the float, array, map and time renderings are abstract
placeholders, and no theorem relies on their fidelity. -/
def render : Value → List Nat
  | .vnull => []
  | .vtrue => [0x74, 0x72, 0x75, 0x65]
  | .vfalse => [0x66, 0x61, 0x6c, 0x73, 0x65]
  | .vint n => intToDecimal n
  | .vfloat bits => 0x66 :: 0x6c :: natToDecimal bits
  | .vstr bs => bs
  | .vsym bs => bs
  | .varr _ => [0x5b, 0x2e, 0x2e, 0x2e, 0x5d]
  | .vmap _ => [0x7b, 0x2e, 0x2e, 0x2e, 0x7d]
  | .vtime s n => 0x54 :: 0x40 :: (intToDecimal s ++ 0x2e :: intToDecimal n)
  | .vother _ r => r

/-- Comparator used to canonically order the (rendering, key) pairs of a map.
The source sorts with std::sort and the strict comparator a.first < b.first on
std::string, whose order between elements with equal renderings is
unspecified; the model resolves that freedom to the stable order (an element
is kept after earlier-inserted elements with an equal rendering). -/
def keyLE (a b : List Nat × Value) : Prop := lexLt b.1 a.1 = false

instance : DecidableRel keyLE := fun a b =>
  inferInstanceAs (Decidable (lexLt b.1 a.1 = false))

instance : IsTotal (List Nat × Value) keyLE := by
  constructor
  intro a b
  by_cases h1 : lexLt b.1 a.1 = false
  · exact Or.inl h1
  · by_cases h2 : lexLt a.1 b.1 = false
    · exact Or.inr h2
    · have ha : lexLt b.1 a.1 = true := by simpa using h1
      have hb : lexLt a.1 b.1 = true := by simpa using h2
      have := lexLt_trans _ _ _ ha hb
      rw [lexLt_irrefl] at this
      exact absurd this (by simp)

instance : IsTrans (List Nat × Value) keyLE := by
  constructor
  intro a b c hab hbc
  unfold keyLE at hab hbc ⊢
  by_cases hca : lexLt c.1 a.1 = true
  · by_cases hba : lexLt a.1 b.1 = true
    · have := lexLt_trans _ _ _ hca hba
      rw [hbc] at this
      exact absurd this (by simp)
    · have hba' : lexLt a.1 b.1 = false := by simpa using hba
      have heq := lexLt_connex _ _ hba' hab
      rw [heq] at hca
      rw [hbc] at hca
      exact absurd hca (by simp)
  · simpa using hca

/-- Payload of a string value: tag 's' then varint byte length then the raw
bytes, from the T_STRING case.  The T_HASH case reuses this byte form for
each key slot, because the source serializes each sorted key by calling
canonical_serialize on a fresh T_STRING holding the key's rendering. -/
def serializeStr (bs : List Nat) : List Nat :=
  0x73 :: (encode_varint bs.length ++ bs)

/-- The eight raw bytes of a 64-bit bit pattern, most-significant byte first,
from the T_FLOAT loop for (int i = 7; i >= 0; i--). -/
def floatBytes (bits : Nat) : List Nat :=
  [(bits >>> 56) &&& 0xff, (bits >>> 48) &&& 0xff, (bits >>> 40) &&& 0xff,
   (bits >>> 32) &&& 0xff, (bits >>> 24) &&& 0xff, (bits >>> 16) &&& 0xff,
   (bits >>> 8) &&& 0xff, bits &&& 0xff]

/-- Opaque fallback payload: tag 'o' then varint length of the byte string
"class name, ':', to_s rendering" then that byte string, from the default
case of the switch. -/
def opaqueBytes (className rendering : List Nat) : List Nat :=
  let rep := className ++ 0x3a :: rendering
  0x6f :: (encode_varint rep.length ++ rep)

/-- The serialized bytes stored for a map key in the pre-serialized value
table: the bytes of the first pair whose key equals k, or the encoding of nil
(rb_hash_aref returns Qnil for a missing key, and canonical_serialize turns
Qnil into the single byte 'n'). -/
def lookupBytes (table : List (Value × List Nat)) (k : Value) : List Nat :=
  match table.find? (fun e => beqV e.1 k) with
  | some e => e.2
  | none => [0x6e]

mutual
/-- Canonical serialization of a value, from SeedCalculator::canonical_serialize.
Each case appends a one-byte type tag and a variant-specific payload; the
T_HASH case builds (rendering, key) pairs from the keys in insertion order,
sorts them by rendering, and then emits for every sorted pair a string-tagged
key slot holding the rendering followed by the encoding of the value fetched
by the original key.  The key rendering is the host's to_s, an external
function the source reaches through rb_funcall, so it enters the embedding
as the parameter toS; theorems that quantify over toS hold for whatever
rendering the host implements.  The source serializes each fetched value
after looking it up; the model pre-serializes every pair's value in
insertion order (serializePairsR) and looks the bytes up by the original
key, which is the same bytes because serialization is a pure function of
the value — this hoisting is only what lets the recursion be structural. -/
def canonical_serializeR (toS : Value → List Nat) : Value → List Nat
  | .vnull => [0x6e]
  | .vtrue => [0x74]
  | .vfalse => [0x66]
  | .vint n => 0x69 :: encode_varint (zigzag (toInt64 n))
  | .vfloat bits => 0x64 :: floatBytes bits
  | .vstr bs => serializeStr bs
  | .vsym bs => 0x79 :: (encode_varint bs.length ++ bs)
  | .varr xs => 0x61 :: (encode_varint xs.length ++ serializeListR toS xs)
  | .vmap pairs =>
    let table := serializePairsR toS pairs
    let sorted := List.insertionSort keyLE (pairs.map (fun q => (toS q.1, q.1)))
    0x68 :: (encode_varint pairs.length ++
      (sorted.map (fun rk => serializeStr rk.1 ++ lookupBytes table rk.2)).flatten)
  | .vtime s n =>
    0x54 :: (encode_varint (toUInt64Nat s) ++ encode_varint (toUInt64Nat n))
  | .vother c r => opaqueBytes c r

def serializeListR (toS : Value → List Nat) : List Value → List Nat
  | [] => []
  | x :: xs => canonical_serializeR toS x ++ serializeListR toS xs

def serializePairsR (toS : Value → List Nat) :
    List (Value × Value) → List (Value × List Nat)
  | [] => []
  | q :: qs => (q.1, canonical_serializeR toS q.2) :: serializePairsR toS qs
end

/-- The embedding of the source encoder: canonical_serializeR instantiated at
the modelled host rendering. -/
def canonical_serialize : Value → List Nat := canonical_serializeR render

/-- The value rb_hash_aref fetches for key k: the value of the first pair
whose key equals k, or nil when no pair matches. -/
def hashLookup (pairs : List (Value × Value)) (k : Value) : Value :=
  match pairs.find? (fun q => beqV q.1 k) with
  | some q => q.2
  | none => .vnull

/-- The FNV-1a accumulation loop of to_seed_int: h ^= byte then
h = (h * FNV_PRIME) & MASK64, one byte at a time in buffer order. -/
def fnvLoop : Nat → List Nat → Nat
  | h, [] => h
  | h, b :: bs => fnvLoop (((h ^^^ b) * FNV_PRIME) &&& MASK64) bs

/-- SeedCalculator::to_seed_int: serialize the value, run the FNV-1a loop
from the offset basis, fold the 64-bit digest h into 32 bits by
(uint32_t)(h ^ (h >> 32)) — the uint32_t cast is reduction modulo 2^32 —
and clear the top bit with the 31-bit mask. -/
def to_seed_int (v : Value) : Nat :=
  let h := fnvLoop FNV_OFFSET (canonical_serialize v)
  let s := (h ^^^ (h >>> 32)) % 2 ^ 32
  s &&& 0x7fffffff

/-- The same seed pipeline over the encoder left parametric in the host
rendering toS. -/
def to_seed_intR (toS : Value → List Nat) (v : Value) : Nat :=
  let h := fnvLoop FNV_OFFSET (canonical_serializeR toS v)
  let s := (h ^^^ (h >>> 32)) % 2 ^ 32
  s &&& 0x7fffffff

/-- to_seed_int is the parametric pipeline at the modelled host rendering. -/
theorem to_seed_int_eq_param (v : Value) : to_seed_int v = to_seed_intR render v :=
  rfl

theorem beqVList_sound_of {n : Nat}
    (ih : ∀ a b : Value, sizeOf a ≤ n → beqV a b = true → a = b) :
    ∀ xs ys : List Value, sizeOf xs ≤ n + 1 → beqVList xs ys = true → xs = ys := by
  intro xs
  induction xs with
  | nil =>
    intro ys _ h
    cases ys with
    | nil => rfl
    | cons y ys => simp [beqVList] at h
  | cons x xs ihx =>
    intro ys hs h
    cases ys with
    | nil => simp [beqVList] at h
    | cons y ys =>
      simp only [beqVList, Bool.and_eq_true] at h
      simp only [List.cons.sizeOf_spec] at hs
      rw [ih x y (by omega) h.1, ihx ys (by omega) h.2]

theorem beqVPairs_sound_of {n : Nat}
    (ih : ∀ a b : Value, sizeOf a ≤ n → beqV a b = true → a = b) :
    ∀ ps qs : List (Value × Value), sizeOf ps ≤ n + 1 → beqVPairs ps qs = true →
      ps = qs := by
  intro ps
  induction ps with
  | nil =>
    intro qs _ h
    cases qs with
    | nil => rfl
    | cons q qs => simp [beqVPairs] at h
  | cons p ps ihp =>
    intro qs hs h
    cases qs with
    | nil => simp [beqVPairs] at h
    | cons q qs =>
      obtain ⟨k, v⟩ := p
      obtain ⟨k2, v2⟩ := q
      simp only [beqVPairs, Bool.and_eq_true] at h
      simp only [List.cons.sizeOf_spec, Prod.mk.sizeOf_spec] at hs
      rw [ih k k2 (by omega) h.1.1, ih v v2 (by omega) h.1.2, ihp qs (by omega) h.2]

/-- Two values that the hash-key equality test declares equal are equal. -/
theorem beqV_sound : ∀ a b : Value, beqV a b = true → a = b := by
  suffices H : ∀ n (a b : Value), sizeOf a ≤ n → beqV a b = true → a = b by
    intro a b h
    exact H (sizeOf a) a b le_rfl h
  intro n
  induction n with
  | zero =>
    intro a b hs _
    exfalso
    cases a <;> simp at hs
  | succ n ih =>
    intro a b hs h
    cases a <;> cases b <;>
      simp only [beqV, decide_eq_true_eq, Bool.and_eq_true] at h <;>
      try exact Bool.noConfusion h
    case vnull => rfl
    case vtrue => rfl
    case vfalse => rfl
    case vint n m => rw [h]
    case vfloat b1 b2 => rw [h]
    case vstr s1 s2 => rw [h]
    case vsym s1 s2 => rw [h]
    case varr xs ys =>
      simp only [Value.varr.sizeOf_spec] at hs
      exact congrArg Value.varr (beqVList_sound_of ih xs ys (by omega) h)
    case vmap ps qs =>
      simp only [Value.vmap.sizeOf_spec] at hs
      exact congrArg Value.vmap (beqVPairs_sound_of ih ps qs (by omega) h)
    case vtime s1 n1 s2 n2 => rw [h.1, h.2]
    case vother c1 r1 c2 r2 => rw [h.1, h.2]

/-- The varint encoder always emits at least one byte. -/
theorem encode_varint_ne_nil (n : Nat) : encode_varint n ≠ [] := by
  rw [encode_varint_eq]
  split_ifs <;> simp

/-- Consecutive varints are unambiguously delimited: if two streams that each
start with a varint agree, the two varints encode the same number and the
remainders agree.  In particular (s = t = []) the encoder is injective. -/
theorem encode_varint_delimits : ∀ a b s t : _,
    encode_varint a ++ s = encode_varint b ++ t → a = b ∧ s = t := by
  intro a
  induction a using Nat.strong_induction_on with
  | _ a ih =>
    intro b s t h
    rw [encode_varint_eq, encode_varint_eq b] at h
    by_cases ha : a < 128 <;> by_cases hb : b < 128 <;>
      simp only [ha, hb, if_true, if_false] at h
    · simpa using h
    · simp only [List.cons_append, List.cons.injEq] at h
      omega
    · simp only [List.cons_append, List.cons.injEq] at h
      omega
    · simp only [List.cons_append, List.cons.injEq] at h
      obtain ⟨hhead, htail⟩ := h
      have hrec := ih (a / 128) (Nat.div_lt_self (by omega) (by omega)) (b / 128) s t htail
      exact ⟨by omega, hrec.2⟩

/-- Every varint splits as continuation bytes (high bit set) followed by one
final byte with the high bit clear. -/
theorem encode_varint_bytes (n : Nat) : ∃ pre fin,
    encode_varint n = pre ++ [fin] ∧ fin < 128 ∧ ∀ x ∈ pre, 128 ≤ x := by
  induction n using Nat.strong_induction_on with
  | _ n ih =>
    rw [encode_varint_eq]
    by_cases h : n < 128
    · exact ⟨[], n, by simp [h], h, by simp⟩
    · obtain ⟨pre, fin, heq, hl, hp⟩ :=
        ih (n / 128) (Nat.div_lt_self (by omega) (by omega))
      refine ⟨(n % 128 + 128) :: pre, fin, ?_, hl, ?_⟩
      · simp [h, heq]
      · intro x hx
        rcases List.mem_cons.mp hx with h1 | h1
        · omega
        · exact hp x h1

/-- The FNV-1a loop is the left fold of the spec's step function: the source's
64-bit mask (bitwise and with MASK64) is reduction modulo 2^64. -/
theorem fnvLoop_eq_foldl : ∀ (bs : List Nat) (h : Nat), fnvLoop h bs =
    bs.foldl (fun state b => ((state ^^^ b) * 0x100000001b3) % 2 ^ 64) h := by
  intro bs
  induction bs with
  | nil =>
    intro h
    rfl
  | cons b bs ih =>
    intro h
    simp only [fnvLoop, List.foldl_cons]
    rw [ih]
    congr 1
    show ((h ^^^ b) * FNV_PRIME) &&& MASK64 = ((h ^^^ b) * 0x100000001b3) % 2 ^ 64
    have hm : MASK64 = 2 ^ 64 - 1 := by norm_num [MASK64]
    rw [hm, Nat.and_pow_two_sub_one_eq_mod]
    rfl

theorem serializePairs_eq_map (toS : Value → List Nat) : ∀ ps : List (Value × Value),
    serializePairsR toS ps = ps.map (fun q => (q.1, canonical_serializeR toS q.2)) := by
  intro ps
  induction ps with
  | nil => rfl
  | cons q qs ih => simp [serializePairsR, ih]

/-- Looking a key's bytes up in the pre-serialized table is the same as
serializing the value that rb_hash_aref fetches for that key: the hoisting in
the model's T_HASH case preserves the source's lookup-then-serialize form. -/
theorem lookupBytes_serializePairs (toS : Value → List Nat)
    (pairs : List (Value × Value)) (k : Value) :
    lookupBytes (serializePairsR toS pairs) k =
      canonical_serializeR toS (hashLookup pairs k) := by
  unfold lookupBytes hashLookup
  rw [serializePairs_eq_map, List.find?_map]
  have hcomp : ((fun e : Value × List Nat => beqV e.1 k) ∘
      fun q : Value × Value => (q.1, canonical_serializeR toS q.2)) =
      fun q : Value × Value => beqV q.1 k := rfl
  rw [hcomp]
  cases pairs.find? (fun q => beqV q.1 k) with
  | none => rfl
  | some q => rfl

/-- The T_HASH case in the source's literal shape, for every host rendering:
tag 'h', varint pair count, then for every (rendering, original key) pair in
canonical order a string-tagged slot holding the rendering followed by the
serialization of the value fetched with the original key. -/
theorem serialize_vmapR (toS : Value → List Nat) (pairs : List (Value × Value)) :
    canonical_serializeR toS (.vmap pairs) =
      0x68 :: (encode_varint pairs.length ++
        ((List.insertionSort keyLE (pairs.map (fun q => (toS q.1, q.1)))).map
          (fun rk => serializeStr rk.1 ++
            canonical_serializeR toS (hashLookup pairs rk.2))).flatten) := by
  simp only [canonical_serializeR]
  have hfun : (fun rk : List Nat × Value =>
        serializeStr rk.1 ++ lookupBytes (serializePairsR toS pairs) rk.2) =
      fun rk : List Nat × Value =>
        serializeStr rk.1 ++ canonical_serializeR toS (hashLookup pairs rk.2) := by
    funext rk
    rw [lookupBytes_serializePairs]
  rw [hfun]

/-- The source-literal T_HASH shape at the modelled rendering. -/
theorem serialize_vmap (pairs : List (Value × Value)) :
    canonical_serialize (.vmap pairs) =
      0x68 :: (encode_varint pairs.length ++
        ((List.insertionSort keyLE (pairs.map (fun q => (render q.1, q.1)))).map
          (fun rk => serializeStr rk.1 ++
            canonical_serialize (hashLookup pairs rk.2))).flatten) :=
  serialize_vmapR render pairs

/-- A permutation between two lists that are both sorted by r, where r is
antisymmetric on the members involved, is the identity. -/
theorem sorted_perm_eq {α : Type} {r : α → α → Prop} :
    ∀ {l1 l2 : List α}, l1.Perm l2 → l1.Pairwise r → l2.Pairwise r →
      (∀ a ∈ l1, ∀ b ∈ l2, r a b → r b a → a = b) → l1 = l2 := by
  intro l1
  induction l1 with
  | nil =>
    intro l2 hp _ _ _
    exact (hp.symm.eq_nil).symm
  | cons a t1 ih =>
    intro l2 hp hs1 hs2 hanti
    cases l2 with
    | nil => exact absurd hp.eq_nil (by simp)
    | cons b t2 =>
      have hab : a = b := by
        have ha2 : a ∈ b :: t2 := hp.mem_iff.mp (by simp)
        have hb1 : b ∈ a :: t1 := hp.mem_iff.mpr (by simp)
        rcases List.mem_cons.mp ha2 with h | h
        · exact h
        · rcases List.mem_cons.mp hb1 with h' | h'
          · exact h'.symm
          · exact hanti a (by simp) b (by simp)
              ((List.pairwise_cons.mp hs1).1 b h')
              ((List.pairwise_cons.mp hs2).1 a h)
      subst hab
      have htl := ih hp.cons_inv (List.pairwise_cons.mp hs1).2
        (List.pairwise_cons.mp hs2).2
        (fun x hx y hy => hanti x (by simp [hx]) y (by simp [hy]))
      rw [htl]

/-- rb_hash_aref lookup is stable under reordering the pairs, provided no two
keys share a textual rendering under the host rendering toS (which forces
the keys to be pairwise distinct). -/
theorem find_key_perm {toS : Value → List Nat} :
    ∀ {p1 p2 : List (Value × Value)}, p1.Perm p2 →
    (p1.map (fun q => toS q.1)).Nodup → ∀ k,
    p1.find? (fun q => beqV q.1 k) = p2.find? (fun q => beqV q.1 k) := by
  intro p1 p2 hperm
  induction hperm with
  | nil =>
    intro _ _
    rfl
  | cons x hp ih =>
    intro hnd k
    simp only [List.map_cons, List.nodup_cons] at hnd
    cases hx : beqV x.1 k
    · simp only [List.find?_cons, hx]
      exact ih hnd.2 k
    · simp only [List.find?_cons, hx]
  | swap x y l =>
    intro hnd k
    simp only [List.map_cons, List.nodup_cons, List.mem_cons] at hnd
    cases hx : beqV x.1 k <;> cases hy : beqV y.1 k <;>
      simp only [List.find?_cons, hx, hy]
    exfalso
    have h1 := beqV_sound _ _ hx
    have h2 := beqV_sound _ _ hy
    exact hnd.1 (Or.inl (by rw [h1, h2]))
  | trans h12 h23 ih1 ih2 =>
    intro hnd k
    rw [ih1 hnd k, ih2 (((h12.map _).nodup_iff).mp hnd) k]

/-- Serialization of a map is invariant under reordering its pairs when the
keys' renderings under the host rendering toS are pairwise distinct. -/
theorem serialize_vmap_perm (toS : Value → List Nat)
    {p1 p2 : List (Value × Value)} (hperm : p1.Perm p2)
    (hnd : (p1.map (fun q => toS q.1)).Nodup) :
    canonical_serializeR toS (.vmap p1) = canonical_serializeR toS (.vmap p2) := by
  have hlen : p1.length = p2.length := hperm.length_eq
  have hsorted : List.insertionSort keyLE (p1.map (fun q => (toS q.1, q.1)))
      = List.insertionSort keyLE (p2.map (fun q => (toS q.1, q.1))) := by
    apply sorted_perm_eq (r := keyLE)
    · exact (List.perm_insertionSort _ _).trans
        ((hperm.map _).trans (List.perm_insertionSort keyLE _).symm)
    · exact List.sorted_insertionSort keyLE _
    · exact List.sorted_insertionSort keyLE _
    · intro a ha b hb hab hba
      have ha' : a ∈ p1.map (fun q => (toS q.1, q.1)) :=
        (List.perm_insertionSort keyLE _).mem_iff.mp ha
      have hb' : b ∈ p2.map (fun q => (toS q.1, q.1)) :=
        (List.perm_insertionSort keyLE _).mem_iff.mp hb
      obtain ⟨q1, hq1, rfl⟩ := List.mem_map.mp ha'
      obtain ⟨q2, hq2, rfl⟩ := List.mem_map.mp hb'
      have hr : toS q1.1 = toS q2.1 := lexLt_connex _ _ hba hab
      have hq2' : q2 ∈ p1 := hperm.mem_iff.mpr hq2
      have hq12 : q1 = q2 := List.inj_on_of_nodup_map hnd hq1 hq2' hr
      rw [hq12]
  have hfun : (fun rk : List Nat × Value =>
        serializeStr rk.1 ++ lookupBytes (serializePairsR toS p1) rk.2) =
      fun rk : List Nat × Value =>
        serializeStr rk.1 ++ lookupBytes (serializePairsR toS p2) rk.2 := by
    funext rk
    rw [lookupBytes_serializePairs, lookupBytes_serializePairs]
    unfold hashLookup
    rw [find_key_perm hperm hnd rk.2]
  simp only [canonical_serializeR]
  rw [hlen, hsorted, hfun]

/-- Following the spec's words (§4.3), for comparison with the source-derived
fnvLoop: state initialized to the offset basis 0xcbf29ce484222325; for each
input byte, state = (state XOR byte) * prime (mod 2^64) with prime
0x100000001b3, processing the buffer strictly in order. -/
def fnv1a_spec (bytes : List Nat) : Nat :=
  bytes.foldl (fun state b => ((state ^^^ b) * 0x100000001b3) % 2 ^ 64)
    0xcbf29ce484222325

/-- Following the spec's words (§4.4), for comparison with the source-derived
to_seed_int: hash the encoder output to a 64-bit digest h, fold via
s = (h XOR (h >> 32)) truncated to 32 bits, then clear the top bit. -/
def seed_for_spec (v : Value) : Nat :=
  let h := fnv1a_spec (canonical_serialize v)
  ((h ^^^ (h >>> 32)) % 2 ^ 32) &&& 0x7fffffff

/-- Modelled from the spec: the host value tree before the one fallible step.
The spec's failure contract (§6/§7) concerns failures "while deriving a
textual rendering for an opaque value" or "in the host's own value
introspection"; the wrapper that performs this introspection and the
SeedComputationError it raises live in the repository's Ruby binding layer,
which is not under src (the C++ file only shows the catch-and-rewrap at
seed_to_seed_int).  An opaque node therefore carries the outcome of the
host's stringification: either the (class name, rendering) byte strings or
the failure cause. -/
inductive RawValue where
  | rnull
  | rtrue
  | rfalse
  | rint (n : Int)
  | rfloat (bits : Nat)
  | rstr (bytes : List Nat)
  | rsym (name : List Nat)
  | rarr (elems : List RawValue)
  | rmap (pairs : List (RawValue × RawValue))
  | rtime (secs : Int) (nsecs : Int)
  | rother (stringified : Except (List Nat) (List Nat × List Nat))

/-- Modelled from the spec: the single error kind of the failure contract,
carrying the underlying cause. -/
inductive SeedError where
  | seedComputationError (cause : List Nat)

mutual
/-- Modelled from the spec: host introspection over the raw value tree; the
only failure point is stringifying an opaque node, and the first failure
propagates out so that no partial result survives. -/
def resolve : RawValue → Except (List Nat) Value
  | .rnull => .ok .vnull
  | .rtrue => .ok .vtrue
  | .rfalse => .ok .vfalse
  | .rint n => .ok (.vint n)
  | .rfloat b => .ok (.vfloat b)
  | .rstr bs => .ok (.vstr bs)
  | .rsym bs => .ok (.vsym bs)
  | .rarr xs =>
    match resolveList xs with
    | .ok vs => .ok (.varr vs)
    | .error c => .error c
  | .rmap ps =>
    match resolvePairs ps with
    | .ok qs => .ok (.vmap qs)
    | .error c => .error c
  | .rtime s n => .ok (.vtime s n)
  | .rother (.ok cr) => .ok (.vother cr.1 cr.2)
  | .rother (.error c) => .error c

def resolveList : List RawValue → Except (List Nat) (List Value)
  | [] => .ok []
  | x :: xs =>
    match resolve x, resolveList xs with
    | .ok v, .ok vs => .ok (v :: vs)
    | .error c, _ => .error c
    | _, .error c => .error c

def resolvePairs : List (RawValue × RawValue) →
    Except (List Nat) (List (Value × Value))
  | [] => .ok []
  | q :: qs =>
    match resolve q.1, resolve q.2, resolvePairs qs with
    | .ok k, .ok v, .ok rest => .ok ((k, v) :: rest)
    | .error c, _, _ => .error c
    | _, .error c, _ => .error c
    | _, _, .error c => .error c
end

/-- Modelled from the spec: the exposed operation's failure behavior — a
successful introspection yields the seed of the resolved value, and an
introspection failure surfaces as SeedComputationError wrapping the cause. -/
def seed_to_seed_int (v : RawValue) : Except SeedError Nat :=
  match resolve v with
  | .ok val => .ok (to_seed_int val)
  | .error cause => .error (.seedComputationError cause)

/-- C1: for every finite acyclic input value v, to_seed_int(v) returns an
unsigned integer s with 0 <= s <= 2^31 - 1. -/
theorem C1_seed_range (v : Value) :
    0 ≤ to_seed_int v ∧ to_seed_int v ≤ 2 ^ 31 - 1 := by
  refine ⟨Nat.zero_le _, ?_⟩
  have h : (2 : Nat) ^ 31 - 1 = 0x7fffffff := by norm_num
  rw [h]
  unfold to_seed_int
  exact Nat.and_le_right

/-- C2 counterexample: two maps holding the same set of (key, value) pairs in
different insertion orders whose seeds nevertheless differ — possible because
the integer key 1 and the string key "1" share the textual rendering "1", so
the sort by rendering does not determine their relative order and the two
insertion orders place their slots differently. -/
theorem C2_order_counterexample :
    (([(Value.vint 1, Value.vnull), (Value.vstr [0x31], Value.vtrue)] :
        List (Value × Value)).Perm
      ([(Value.vstr [0x31], Value.vtrue), (Value.vint 1, Value.vnull)])) ∧
    to_seed_int (.vmap [(Value.vint 1, Value.vnull),
        (Value.vstr [0x31], Value.vtrue)]) ≠
      to_seed_int (.vmap [(Value.vstr [0x31], Value.vtrue),
        (Value.vint 1, Value.vnull)]) :=
  ⟨List.Perm.swap _ _ _, by decide⟩

/-- C2 (amended): for any two maps containing the same set of (key, value)
pairs but built with different insertion orders, to_seed_int returns
identical seeds, provided the keys' textual renderings are pairwise
distinct; the encoder erases insertion order by sorting the pairs by each
key's rendering in byte-wise lexicographic order before emitting them.
The host's to_s is external to the source, so the theorem quantifies over
the rendering function toS: whatever renderings the host actually produces,
maps whose keys render pairwise distinctly get order-independent seeds. -/
theorem C2_order_insensitive (toS : Value → List Nat)
    (p1 p2 : List (Value × Value))
    (hperm : p1.Perm p2)
    (hnd : (p1.map (fun q => toS q.1)).Nodup) :
    to_seed_intR toS (.vmap p1) = to_seed_intR toS (.vmap p2) := by
  unfold to_seed_intR
  rw [serialize_vmap_perm toS hperm hnd]

theorem C2_order_insensitive_witness :
    to_seed_intR render (.vmap [(Value.vint 1, Value.vnull),
        (Value.vstr [0x61], Value.vtrue)]) =
      to_seed_intR render (.vmap [(Value.vstr [0x61], Value.vtrue),
        (Value.vint 1, Value.vnull)]) :=
  C2_order_insensitive render _ _ (List.Perm.swap _ _ _) (by decide)

/-- C3: every key slot of a map is encoded as a String-tagged value carrying
the key's textual rendering, while the paired value is fetched using the
original key identity; consequently a map whose key is the integer 1 and a
map whose key is the string "1" (same paired value) encode identically. -/
theorem C3_key_rendering :
    (∀ pairs : List (Value × Value), canonical_serialize (.vmap pairs) =
        0x68 :: (encode_varint pairs.length ++
          ((List.insertionSort keyLE
              (pairs.map (fun q => (render q.1, q.1)))).map
            (fun rk => canonical_serialize (.vstr rk.1) ++
              canonical_serialize (hashLookup pairs rk.2))).flatten)) ∧
    (∀ v : Value, canonical_serialize (.vmap [(.vint 1, v)]) =
        canonical_serialize (.vmap [(.vstr [0x31], v)])) := by
  constructor
  · intro pairs
    rw [serialize_vmap pairs]
    rfl
  · intro v
    rfl

/-- C4: every Integer value, arbitrary-precision ones included, encodes
without error as tag 'i' followed by varint(zigzag(·)) of its 64-bit
two's-complement reinterpretation; an out-of-range value encodes exactly as
its truncation does. -/
theorem C4_int_truncation :
    (∀ n : Int, canonical_serialize (.vint n) =
        0x69 :: encode_varint (zigzag (toInt64 n))) ∧
    (∀ n : Int, canonical_serialize (.vint n) =
        canonical_serialize (.vint (toInt64 n))) ∧
    canonical_serialize (.vint (2 ^ 64 + 5)) =
      canonical_serialize (.vint 5) := by
  refine ⟨fun n => rfl, fun n => ?_, by decide⟩
  have h : toInt64 (toInt64 n) = toInt64 n := by
    simp only [toInt64]
    split_ifs <;> omega
  show 0x69 :: encode_varint (zigzag (toInt64 n)) =
    0x69 :: encode_varint (zigzag (toInt64 (toInt64 n)))
  rw [h]

/-- C5: whenever the host introspection performed while encoding fails, the
call surfaces the failure as the single error kind SeedComputationError
carrying the underlying cause, and no seed is produced; a successful
introspection yields the seed of the resolved value. -/
theorem C5_error_contract (v : RawValue) :
    (∀ c, resolve v = .error c →
      seed_to_seed_int v = .error (.seedComputationError c)) ∧
    (∀ val, resolve v = .ok val →
      seed_to_seed_int v = .ok (to_seed_int val)) ∧
    (∀ e, seed_to_seed_int v = .error e →
      ∃ c, e = .seedComputationError c ∧ resolve v = .error c) := by
  refine ⟨?_, ?_, ?_⟩ <;> unfold seed_to_seed_int
  · intro c hc
    rw [hc]
  · intro val hval
    rw [hval]
  · intro e he
    cases hr : resolve v with
    | ok val =>
      rw [hr] at he
      exact absurd he (by simp)
    | error c =>
      rw [hr] at he
      simp only [Except.error.injEq] at he
      exact ⟨c, he.symm, rfl⟩

theorem C5_error_contract_witness :
    seed_to_seed_int (.rarr [.rnull,
        .rother (.error [0x62, 0x6f, 0x6f, 0x6d])]) =
      .error (.seedComputationError [0x62, 0x6f, 0x6f, 0x6d]) :=
  (C5_error_contract (.rarr [.rnull,
    .rother (.error [0x62, 0x6f, 0x6f, 0x6d])])).1 _ rfl

/-- C6: the seed equals the spec's fold of the FNV-1a digest of the canonical
encoding: from state 0xcbf29ce484222325, each byte updates
state = (state XOR byte) * 0x100000001b3 mod 2^64, and the result is
((h XOR (h >> 32)) truncated to 32 bits) AND 0x7fffffff. -/
theorem C6_seed_formula (v : Value) : to_seed_int v = seed_for_spec v := by
  unfold to_seed_int seed_for_spec
  rw [fnvLoop_eq_foldl]
  rfl

/-- C7: the canonical encoder reproduces the literal scalar fixtures. -/
theorem C7_scalar_fixtures :
    canonical_serialize .vnull = [0x6e] ∧
    canonical_serialize .vtrue = [0x74] ∧
    canonical_serialize (.vint 5) = [0x69, 0x0a] ∧
    canonical_serialize (.vint (-1)) = [0x69, 0x01] ∧
    canonical_serialize (.varr []) = [0x61, 0x00] ∧
    canonical_serialize (.vmap []) = [0x68, 0x00] :=
  ⟨rfl, rfl, by decide, by decide, by decide, by decide⟩

/-- C8: a Float encodes as tag 'd' plus the 8 raw bytes of its bit pattern,
most-significant byte first, so distinct 64-bit patterns give distinct
encodings; in particular the seeds of 0.0 (pattern 0) and -0.0 (pattern
2^63) differ. -/
theorem C8_float_bits :
    (∀ b1 b2 : Nat, b1 < 2 ^ 64 → b2 < 2 ^ 64 →
      canonical_serialize (.vfloat b1) = canonical_serialize (.vfloat b2) →
      b1 = b2) ∧
    to_seed_int (.vfloat 0) ≠ to_seed_int (.vfloat 0x8000000000000000) := by
  constructor
  · intro b1 b2 h1 h2 heq
    simp only [canonical_serialize, canonical_serializeR, floatBytes,
      List.cons.injEq, and_true, true_and] at heq
    have hff : (0xff : Nat) = 2 ^ 8 - 1 := by norm_num
    simp only [Nat.shiftRight_eq_div_pow, hff,
      Nat.and_pow_two_sub_one_eq_mod] at heq
    omega
  · decide

theorem C8_float_bits_witness : (5 : Nat) = 5 :=
  C8_float_bits.1 5 5 (by norm_num) (by norm_num) rfl

/-- C9: a Timestamp encodes as tag 'T' followed by varint(seconds) and
varint(nanoseconds), both treated as unsigned after 64-bit truncation; in
particular a negative seconds component s in int64 range encodes as the
unsigned value 2^64 + s. -/
theorem C9_timestamp :
    (∀ s n : Int, canonical_serialize (.vtime s n) =
        0x54 :: (encode_varint (toUInt64Nat s) ++
          encode_varint (toUInt64Nat n))) ∧
    (∀ s n : Int, -2 ^ 63 ≤ s → s < 0 → 0 ≤ n → n < 2 ^ 64 →
      canonical_serialize (.vtime s n) =
        0x54 :: (encode_varint (2 ^ 64 + s).toNat ++
          encode_varint n.toNat)) := by
  refine ⟨fun s n => rfl, fun s n hs1 hs2 hn1 hn2 => ?_⟩
  have h1 : toUInt64Nat s = (2 ^ 64 + s).toNat := by
    unfold toUInt64Nat
    omega
  have h2 : toUInt64Nat n = n.toNat := by
    unfold toUInt64Nat
    omega
  show 0x54 :: (encode_varint (toUInt64Nat s) ++ encode_varint (toUInt64Nat n)) = _
  rw [h1, h2]

theorem C9_timestamp_witness :
    canonical_serialize (.vtime (-5) 3) =
      0x54 :: (encode_varint ((2 : Int) ^ 64 + (-5)).toNat ++
        encode_varint ((3 : Int)).toNat) :=
  C9_timestamp.2 (-5) 3 (by norm_num) (by norm_num) (by norm_num) (by norm_num)

/-- C10: encode_varint emits at least one byte for every input (zero encodes
as the single byte 0x00), consecutive varints are unambiguously delimited
(hence the encoder is injective), and every output is continuation bytes
(high bit set) followed by a final byte with the high bit clear. -/
theorem C10_varint :
    (∀ n, encode_varint n ≠ []) ∧
    encode_varint 0 = [0x00] ∧
    (∀ a b s t : _, encode_varint a ++ s = encode_varint b ++ t →
      a = b ∧ s = t) ∧
    (∀ n, ∃ pre fin, encode_varint n = pre ++ [fin] ∧ fin < 128 ∧
      ∀ x ∈ pre, 128 ≤ x) :=
  ⟨encode_varint_ne_nil, rfl, encode_varint_delimits, encode_varint_bytes⟩

theorem C10_varint_witness : (300 : Nat) = 300 ∧ ([7] : List Nat) = [7] :=
  C10_varint.2.2.1 300 300 [7] [7] rfl

end PseudoRandom
